import Mathlib

/- Shallow embedding of mp4len.c, a command-line tool that prints the duration in
seconds of an MP4 video.  A file is a list of byte values (naturals below 256);
the C stream cursor becomes an explicit position into that list.  C `int`
arithmetic that overflows (an undefined-behavior slip in the source that the
compiled program resolves as two's-complement wrap, the behavior of gcc on
x86-64) is modelled as that wrap.  IEEE-754 double and float values are modelled
as rationals rounded to 53 and 24 significant bits (round to nearest, ties to
even) with an unbounded exponent; every value arising in this program lies well
inside the normal range of both formats, so overflow and subnormal handling
never fire.  fseek on a regular file succeeds for any non-negative target
offset, including offsets past end of file, so the seek-failure exits of the
source (10, 21, 22, 24, 31, 32) are not modelled as reachable outcomes; short
reads are modelled faithfully (error codes 11, 33, 34).  The malloc-failure
exit 20 is outside the byte-level model. -/

/-- BLOCK_SIZE from mp4len.c line 19: the number of bytes read from the file at
once by the atom locator. -/
def BLOCK_SIZE : ℕ := 16384

/-- MIN_SIZE from mp4len.c line 18: the minimum file size accepted by main. -/
def MIN_SIZE : ℕ := 51

deriving instance DecidableEq for Except

/-- The header tag bytes "mvhd" (mp4len.c line 117) as a list. -/
def hdrList : List ℕ := [109, 118, 104, 100]

/-- The header tag bytes "mvhd", indexed as the C array access hdr[i]. -/
def hdrByte : ℕ → ℕ
  | 0 => 109
  | 1 => 118
  | 2 => 104
  | 3 => 100
  | _ => 0

/-- The pattern "mvhd" occurs in the file at byte offset i. -/
def isMatchAt (file : List ℕ) (i : ℕ) : Prop :=
  (file.drop i).take 4 = hdrList

instance (file : List ℕ) (i : ℕ) : Decidable (isMatchAt file i) := by
  unfold isMatchAt; infer_instance

/-- Number of blocks covering the file, mp4len.c lines 78-81. -/
def n_blocks (fsize : ℕ) : ℕ :=
  fsize / BLOCK_SIZE + if fsize % BLOCK_SIZE > 0 then 1 else 0

/-- Absolute byte offset at which iteration xx of the scan loop positions the
stream before reading a block (mp4len.c lines 89-106).  Odd iterations seek
relative to the end of the file: the C call is
fseek(fptr, (ii - n_blocks) * BLOCK_SIZE, SEEK_END) with
ii = n_blocks - 1 - (xx - 1) / 2, which lands at absolute offset
fsize + (ii - n_blocks) * BLOCK_SIZE.  Even iterations seek to
(xx / 2) * BLOCK_SIZE from the start. -/
def seekOffset (fsize xx : ℕ) : ℤ :=
  if xx % 2 = 1 then
    (((n_blocks fsize - 1 - (xx - 1) / 2 : ℕ) : ℤ) - (n_blocks fsize : ℤ)) *
      (BLOCK_SIZE : ℤ) + (fsize : ℤ)
  else ((xx / 2 : ℕ) : ℤ) * (BLOCK_SIZE : ℤ)

/-- The inner matching loop of move_to_header (mp4len.c lines 119-136): scan the
block contents buf, where pos is the absolute file offset of the head of buf and
cm is the current streak of matched header characters.  Returns
(some cursor, 4) on an in-block match, where cursor is the absolute offset just
past the matched tag (the fseek of line 124), and (none, final streak)
otherwise.  On a mismatching byte the streak resets to 0 and the scan moves on
without re-examining that byte, exactly as the source does. -/
def scanBuf : List ℕ → ℕ → ℕ → Option ℕ × ℕ
  | [], cm, _ => (none, cm)
  | b :: rest, cm, pos =>
    if b = hdrByte cm then
      (if cm = 3 then (some (pos + 1), 4) else scanBuf rest (cm + 1) (pos + 1))
    else scanBuf rest 0 (pos + 1)

/-- The block-boundary continuation of move_to_header (mp4len.c lines 138-152):
starting with streak cm at absolute offset q (the stream position after the
block read), keep reading single bytes with fgetc while they continue the
match.  fgetc at or past end of file returns EOF, which matches no header
byte; this is modelled by the out-of-range default 256.  Returns the final
streak (0 or 4) and the final stream position; on completion (streak 4) the
position is just past the matched tag.  The fuel argument (always 4 at call
sites) bounds the loop, which runs at most 4 - cm steps. -/
def contMatch (file : List ℕ) : ℕ → ℕ → ℕ → ℕ × ℕ
  | 0, cm, q => (cm, q)
  | fuel + 1, cm, q =>
    if cm = 4 then (4, q)
    else if file.getD q 256 = hdrByte cm then contMatch file fuel (cm + 1) (q + 1)
    else (0, q)

/-- The block loop of move_to_header (mp4len.c lines 89-159) over the remaining
iteration indices.  Each iteration seeks to seekOffset, reads up to BLOCK_SIZE
bytes, scans them, and on a dangling streak probes the following bytes one at a
time.  Returns some cursor (just past the matched tag) or none. -/
def mthLoop (file : List ℕ) : List ℕ → Option ℕ
  | [] => none
  | xx :: rest =>
    let start := (seekOffset file.length xx).toNat
    let buf := (file.drop start).take BLOCK_SIZE
    match (scanBuf buf 0 start).1 with
    | some c => some c
    | none =>
      if 0 < (scanBuf buf 0 start).2 then
        if (contMatch file 4 (scanBuf buf 0 start).2 (start + buf.length)).1 = 4 then
          some (contMatch file 4 (scanBuf buf 0 start).2 (start + buf.length)).2
        else mthLoop file rest
      else mthLoop file rest

/-- move_to_header (mp4len.c lines 66-163): search the file for the tag "mvhd"
in alternating front/back block order; some cursor means found with the stream
positioned at cursor (C return value 0), none means not found (C return 1). -/
def move_to_header (file : List ℕ) : Option ℕ :=
  mthLoop file (List.range (n_blocks file.length))

/-- The 8 signature bytes read at offset 4, reinterpreted through the union as a
little-endian 64-bit integer (mp4len.c lines 32-51): c[0] is the least
significant byte. -/
def magic_ull : List ℕ → ℕ
  | [c0, c1, c2, c3, c4, c5, c6, c7] =>
    c0 + c1 * 2 ^ 8 + c2 * 2 ^ 16 + c3 * 2 ^ 24 + c4 * 2 ^ 32 + c5 * 2 ^ 40 +
      c6 * 2 ^ 48 + c7 * 2 ^ 56
  | _ => 0

/-- has_mp4_magic (mp4len.c lines 30-61): seek to offset 4 (always succeeds on a
regular file), read 8 bytes (short read exits with code 11), and compare the
little-endian reinterpretation with the two accepted constants.  ok true / ok
false are the C results 1 / 0. -/
def has_mp4_magic (file : List ℕ) : Except ℕ Bool :=
  let magic := (file.drop 4).take 8
  if magic.length ≠ 8 then .error 11
  else .ok (if magic_ull magic = 0x6D6F736970797466 ∨
              magic_ull magic = 0x3234706D70797466 then true else false)

/-- Bytes to skip after the version byte (mp4len.c lines 187-198): 19 for
version 1, 11 for every other version value, including EOF (-1). -/
def skipLen (version : ℤ) : ℕ := if version = 1 then 19 else 11

/-- Width in bytes of the duration field (mp4len.c lines 210-230): 8 for
version 1, 4 for every other version value. -/
def durWidth (version : ℤ) : ℕ := if version = 1 then 8 else 4

/-- The C expression (buf[i] << 24) evaluated in int arithmetic: for buf[i] at
least 128 the shift overflows the 31 value bits of int (undefined behavior in
C), which the compiled program resolves as a two's-complement wrap to a
negative value. -/
def intShift24 (b : ℕ) : ℤ :=
  if 128 ≤ b then (b : ℤ) * 2 ^ 24 - 2 ^ 32 else (b : ℤ) * 2 ^ 24

/-- The int-typed sum buf[j+3] + (buf[j+2] << 8) + (buf[j+1] << 16) +
(buf[j] << 24) used by mp4len.c lines 207 and 232 (argument order: most
significant byte first). -/
def lowWord : List ℕ → ℤ
  | [b0, b1, b2, b3] => (b3 : ℤ) + (b2 : ℤ) * 2 ^ 8 + (b1 : ℤ) * 2 ^ 16 + intShift24 b0
  | _ => 0

/-- unit_per_sec (mp4len.c line 207): the int sum of the four timescale bytes
converted to the 64-bit unsigned long, i.e. reduced modulo 2^64 (a negative int
sign-extends). -/
def uLongOfBytes (l : List ℕ) : ℕ := ((lowWord l) % (2 ^ 64 : ℤ)).toNat

/-- len_unit (mp4len.c lines 232-236): the 8 buffer bytes assembled into an
unsigned long long.  The low four bytes go through int arithmetic (lowWord,
sign-extending when buf[4] has its top bit set); the high four are shifted as
unsigned long long and cannot overflow.  The int value converts to unsigned
long long modulo 2^64. -/
def u64FromBuf : List ℕ → ℕ
  | [b0, b1, b2, b3, b4, b5, b6, b7] =>
    ((lowWord [b4, b5, b6, b7] + (b3 : ℤ) * 2 ^ 32 + (b2 : ℤ) * 2 ^ 40 +
        (b1 : ℤ) * 2 ^ 48 + (b0 : ℤ) * 2 ^ 56) % (2 ^ 64 : ℤ)).toNat
  | _ => 0

/-- Round a rational to the nearest integer, ties to even (the IEEE-754 default
rounding applied to a scaled significand). -/
def rne (s : ℚ) : ℤ :=
  if s - ⌊s⌋ < 1 / 2 then ⌊s⌋
  else if 1 / 2 < s - ⌊s⌋ then ⌊s⌋ + 1
  else if ⌊s⌋ % 2 = 0 then ⌊s⌋ else ⌊s⌋ + 1

/-- Round a positive rational to p significant bits, round to nearest, ties to
even, unbounded exponent. -/
def rndPos (p : ℕ) (x : ℚ) : ℚ :=
  (rne (x * 2 ^ ((p : ℤ) - 1 - Int.log 2 x)) : ℚ) * 2 ^ (Int.log 2 x - (p : ℤ) + 1)

/-- Round a rational to p significant bits (p = 53 models an IEEE double,
p = 24 an IEEE float), round to nearest, ties to even, unbounded exponent. -/
def rnd (p : ℕ) (x : ℚ) : ℚ :=
  if x = 0 then 0 else if 0 < x then rndPos p x else -rndPos p (-x)

/-- Value of a C double: a finite rational, an infinity, or NaN. -/
inductive DVal where
  | num : ℚ → DVal
  | posInf : DVal
  | negInf : DVal
  | nan : DVal
deriving DecidableEq

/-- IEEE double division of two already-rounded double values: division by zero
yields an infinity (or NaN for 0/0), otherwise the exact quotient correctly
rounded to 53 bits. -/
def ddiv (a b : ℚ) : DVal :=
  if b = 0 then (if a = 0 then .nan else if 0 < a then .posInf else .negInf)
  else .num (rnd 53 (a / b))

/-- get_mp4_len (mp4len.c lines 166-241): position after the mvhd tag (exit 30
if absent), read the version byte with fgetc (EOF when the cursor is at end of
file), skip flags and timestamps, read the 4 timescale bytes (short read exits
33), read the 4- or 8-byte duration (short read exits 34), zero-padding the
high half in the 4-byte case, and return
(double)len_unit / (float)unit_per_sec: both operands rounded to their
format's precision, then an IEEE double division. -/
def get_mp4_len (file : List ℕ) : Except ℕ DVal :=
  match move_to_header file with
  | none => .error 30
  | some c =>
    let after := file.drop c
    let version : ℤ := match after.head? with | some b => (b : ℤ) | none => -1
    let tsBytes := (after.drop (1 + skipLen version)).take 4
    if tsBytes.length ≠ 4 then .error 33
    else
      let unit_per_sec := uLongOfBytes tsBytes
      let dRead := (after.drop (1 + skipLen version + 4)).take (durWidth version)
      if dRead.length ≠ durWidth version then .error 34
      else
        let buf8 := if version = 1 then dRead else [0, 0, 0, 0] ++ dRead
        .ok (ddiv (rnd 53 ((u64FromBuf buf8 : ℕ) : ℚ)) (rnd 24 ((unit_per_sec : ℕ) : ℚ)))

/-- main (mp4len.c lines 243-294) on an opened regular file: the pair is the
process exit code and the duration value printed to standard output (none when
nothing is printed).  Size below MIN_SIZE exits 3 before any other check;
signature mismatch exits 4; errors inside the sniffer and decoder propagate
their exit codes; success prints the computed duration and exits 0.  (Lean
reserves the name main for executables, hence mainFn.) -/
def mainFn (file : List ℕ) : ℕ × Option DVal :=
  if file.length < MIN_SIZE then (3, none)
  else
    match has_mp4_magic file with
    | .error e => (e, none)
    | .ok false => (4, none)
    | .ok true =>
      match get_mp4_len file with
      | .error e => (e, none)
      | .ok v => (0, some v)

/-- Big-endian 4-byte encoding of a 32-bit value (most significant first). -/
def toBE4 (n : ℕ) : List ℕ :=
  [n / 2 ^ 24 % 256, n / 2 ^ 16 % 256, n / 2 ^ 8 % 256, n % 256]

/-- The first 44 bytes of the synthetic test file of spec section 8: 4 size
bytes, the signature "ftypisom" at offsets 4-11, zero padding, and the tag
"mvhd" at offsets 40-43. -/
def pre44 : List ℕ :=
  [0, 0, 0, 0,
   102, 116, 121, 112, 105, 115, 111, 109,
   0, 0, 0, 0, 0, 0, 0, 0, 0, 0, 0, 0, 0, 0, 0, 0,
   0, 0, 0, 0, 0, 0, 0, 0, 0, 0, 0, 0,
   109, 118, 104, 100]

/-- Offsets 45-55 of the synthetic version-0 file: 3 flag bytes and two 4-byte
timestamps, all zero. -/
def mid11 : List ℕ := [0, 0, 0, 0, 0, 0, 0, 0, 0, 0, 0]

/-- A minimal well-formed version-0 MP4 file (64 bytes): signature at offset 4,
mvhd tag at offset 40, version byte 0 at 44, flags and timestamps zero,
timescale T at 56-59 and duration D at 60-63, both big-endian. -/
def mkV0File (T D : ℕ) : List ℕ :=
  pre44 ++ [0] ++ mid11 ++ toBE4 T ++ toBE4 D

/-- A 51-byte file whose bytes 0-4 are "mmvhd": the pattern "mvhd" occurs at
offset 1, immediately preceded by an extra letter m. -/
def badFile : List ℕ :=
  [109, 109, 118, 104, 100] ++ List.replicate 46 0

/-- The ISO-BMFF signature "ftypisom" as file bytes (spec section 4.1). -/
def isoSig : List ℕ := [102, 116, 121, 112, 105, 115, 111, 109]

/-- The QuickTime signature "ftypmp42" as file bytes (spec section 4.1). -/
def mp42Sig : List ℕ := [102, 116, 121, 112, 109, 112, 52, 50]

/-- The value denoted by a big-endian byte sequence.  Modelled from the spec:
this is the reading the specification assigns to the stored duration field
("unsigned 64-bit big-endian"), used as the reference against which the
decoder's arithmetic is compared. -/
def be64_spec (l : List ℕ) : ℕ := l.foldl (fun acc b => acc * 256 + b) 0

/-- Rounding an integer to the nearest integer is the identity. -/
theorem rne_intCast (m : ℤ) : rne (m : ℚ) = m := by
  simp [rne]

/-- Uniqueness of the binary exponent: if 2^e <= x < 2^(e+1) then Int.log 2 x = e. -/
theorem log2_eq_of {x : ℚ} {e : ℤ} (hx : 0 < x) (h1 : (2 : ℚ) ^ e ≤ x)
    (h2 : x < (2 : ℚ) ^ (e + 1)) : Int.log 2 x = e := by
  have hb : (1 : ℕ) < 2 := one_lt_two
  have ha : e ≤ Int.log 2 x := by
    rw [← Int.zpow_le_iff_le_log hb hx]
    exact_mod_cast h1
  have hc : Int.log 2 x < e + 1 := by
    rw [← Int.lt_zpow_iff_log_lt hb hx]
    exact_mod_cast h2
  omega

/-- Unfolding of rnd at a positive argument with a known binary exponent. -/
theorem rnd_eq_of (p : ℕ) {x : ℚ} {e : ℤ} (hx : 0 < x) (h1 : (2 : ℚ) ^ e ≤ x)
    (h2 : x < (2 : ℚ) ^ (e + 1)) :
    rnd p x = (rne (x * 2 ^ ((p : ℤ) - 1 - e)) : ℚ) * 2 ^ (e - (p : ℤ) + 1) := by
  rw [rnd, if_neg hx.ne', if_pos hx, rndPos, log2_eq_of hx h1 h2]

/-- A natural number below 2^p is exactly representable at precision p: rounding
does not move it. -/
theorem rnd_natCast (p : ℕ) (n : ℕ) (h : n < 2 ^ p) : rnd p (n : ℚ) = n := by
  rcases Nat.eq_zero_or_pos n with rfl | hn
  · simp [rnd]
  · have hx : (0 : ℚ) < n := by exact_mod_cast hn
    have hLp : Nat.log 2 n < p := Nat.log_lt_of_lt_pow (by omega) h
    have hlog : Int.log 2 (n : ℚ) = (Nat.log 2 n : ℤ) := Int.log_natCast 2 n
    rw [rnd, if_neg hx.ne', if_pos hx, rndPos, hlog]
    have hd : (p : ℤ) - 1 - (Nat.log 2 n : ℤ) = ((p - 1 - Nat.log 2 n : ℕ) : ℤ) := by
      omega
    rw [hd]
    have h1 : (n : ℚ) * 2 ^ (((p - 1 - Nat.log 2 n : ℕ) : ℤ)) =
        (((n * 2 ^ (p - 1 - Nat.log 2 n) : ℕ) : ℤ) : ℚ) := by
      push_cast [zpow_natCast]
      ring
    rw [h1, rne_intCast]
    have h3 : (Nat.log 2 n : ℤ) - p + 1 = -(((p - 1 - Nat.log 2 n : ℕ)) : ℤ) := by
      omega
    rw [h3, zpow_neg, zpow_natCast]
    push_cast
    rw [mul_assoc, mul_inv_cancel₀ (by positivity), mul_one]

/-- toBE4 always yields four bytes. -/
theorem toBE4_length (n : ℕ) : (toBE4 n).length = 4 := by simp [toBE4]

/-- For values below 2^31 the top byte is below 128, so the int sum of the four
big-endian bytes reconstructs the value without sign extension. -/
theorem lowWord_toBE4 (T : ℕ) (h : T < 2 ^ 31) : lowWord (toBE4 T) = (T : ℤ) := by
  simp only [toBE4, lowWord, intShift24]
  rw [if_neg (by omega)]
  push_cast
  omega

/-- Decoding the big-endian encoding of T < 2^31 through the unsigned long
conversion recovers T. -/
theorem uLong_toBE4 (T : ℕ) (h : T < 2 ^ 31) : uLongOfBytes (toBE4 T) = T := by
  rw [uLongOfBytes, lowWord_toBE4 T h]
  omega

/-- The version-0 duration assembly: zero-padded high half plus the big-endian
bytes of D < 2^31 decode to D. -/
theorem u64_pad_toBE4 (D : ℕ) (h : D < 2 ^ 31) :
    u64FromBuf ([0, 0, 0, 0] ++ toBE4 D) = D := by
  have hl := lowWord_toBE4 D h
  simp only [toBE4] at hl ⊢
  simp only [List.cons_append, List.nil_append, u64FromBuf]
  rw [hl]
  push_cast
  omega

/-- Scanning any block that starts with the 44 bytes of pre44 finds the tag at
offsets 40-43 and reports cursor 44, regardless of what follows. -/
theorem scanBuf_pre44 (rest : List ℕ) : scanBuf (pre44 ++ rest) 0 0 = (some 44, 4) := by
  simp [pre44, scanBuf, hdrByte]

/-- The length of the synthetic version-0 file. -/
theorem mkV0File_length (T D : ℕ) : (mkV0File T D).length = 64 := by
  simp [mkV0File, pre44, mid11, toBE4]

/-- The locator finds the tag of the synthetic version-0 file and leaves the
cursor at offset 44 for any timescale and duration. -/
theorem mth_mkV0 (T D : ℕ) : move_to_header (mkV0File T D) = some 44 := by
  rw [move_to_header, mkV0File_length]
  rw [show n_blocks 64 = 1 from by decide, show List.range 1 = [0] from by decide,
    mthLoop, mkV0File_length]
  rw [show (seekOffset 64 0).toNat = 0 from by decide]
  rw [List.drop_zero, List.take_of_length_le (by rw [mkV0File_length]; norm_num [BLOCK_SIZE])]
  rw [show mkV0File T D = pre44 ++ ([0] ++ mid11 ++ (toBE4 T ++ toBE4 D)) from by
        simp [mkV0File]]
  rw [scanBuf_pre44]

/-- Bytes after the tag of the synthetic version-0 file: the version byte 0
followed by flags, timestamps, timescale and duration. -/
theorem drop44_mkV0 (T D : ℕ) :
    (mkV0File T D).drop 44 = 0 :: (mid11 ++ (toBE4 T ++ toBE4 D)) := by
  rw [show mkV0File T D = pre44 ++ (0 :: (mid11 ++ (toBE4 T ++ toBE4 D))) from by
        simp [mkV0File]]
  exact List.drop_left' (by rfl)

/-- mid11 has eleven bytes. -/
theorem mid11_length : mid11.length = 11 := rfl

/-- Skipping flags and version-0 timestamps lands on the timescale bytes. -/
theorem take4_drop11 (T D : ℕ) :
    List.take 4 (List.drop 11 (mid11 ++ (toBE4 T ++ toBE4 D))) = toBE4 T := by
  rw [List.drop_left' mid11_length, List.take_left' (toBE4_length T)]

/-- Skipping four bytes further lands on the duration bytes. -/
theorem take4_drop15 (T D : ℕ) :
    List.take 4 (List.drop 15 (mid11 ++ (toBE4 T ++ toBE4 D))) = toBE4 D := by
  rw [show mid11 ++ (toBE4 T ++ toBE4 D) = (mid11 ++ toBE4 T) ++ toBE4 D from by simp]
  rw [List.drop_left' (by simp [mid11, toBE4]), List.take_of_length_le (le_of_eq (toBE4_length D))]

/-- Version-0 duration assembly in cons form. -/
theorem u64_pad_cons (D : ℕ) (h : D < 2 ^ 31) :
    u64FromBuf (0 :: 0 :: 0 :: 0 :: toBE4 D) = D := by
  have := u64_pad_toBE4 D h
  simpa using this

/-- Full evaluation of the decoder on the synthetic version-0 file: both stored
fields below 2^31 decode intact, and the result is the modelled C division
(double)D / (float)T. -/
theorem get_v0 (T D : ℕ) (hT : T < 2 ^ 31) (hD : D < 2 ^ 31) :
    get_mp4_len (mkV0File T D) = .ok (ddiv (rnd 53 (D : ℚ)) (rnd 24 (T : ℚ))) := by
  rw [get_mp4_len, mth_mkV0]
  simp only [drop44_mkV0, List.head?_cons, Nat.cast_zero, skipLen, durWidth]
  norm_num [mid11_length, toBE4_length]
  rw [take4_drop15 T D, uLong_toBE4 T hT, u64_pad_cons D hD]

/-- C1 (amended): for a well-formed version-0 movie header with timescale T,
0 < T < 2^24, and duration D < 2^31, the program's duration is D / T correctly
rounded to double precision.  (The restriction on T is forced by the cast of
the timescale to single-precision float in mp4len.c line 239; the restriction
on D by the sign-extending assembly of line 232.) -/
theorem c1_v0_duration_correct (T D : ℕ) (hT0 : 0 < T) (hT : T < 2 ^ 24)
    (hD : D < 2 ^ 31) :
    get_mp4_len (mkV0File T D) = .ok (.num (rnd 53 ((D : ℚ) / (T : ℚ)))) := by
  rw [get_v0 T D (by omega) hD, rnd_natCast 24 T hT, rnd_natCast 53 D (by omega)]
  rw [ddiv, if_neg (by exact_mod_cast hT0.ne')]

/-- C1 witness: the amended theorem applied at timescale 1000, duration 5000. -/
theorem c1_v0_duration_correct_witness :
    0 < (1000 : ℕ) ∧ (1000 : ℕ) < 2 ^ 24 ∧ (5000 : ℕ) < 2 ^ 31 ∧
      get_mp4_len (mkV0File 1000 5000) =
        .ok (.num (rnd 53 (((5000 : ℕ) : ℚ) / ((1000 : ℕ) : ℚ)))) :=
  ⟨by norm_num, by norm_num, by norm_num,
    c1_v0_duration_correct 1000 5000 (by norm_num) (by norm_num) (by norm_num)⟩

/-- rne at a value whose fractional part is below one half rounds down. -/
theorem rne_of_lt_half (s : ℚ) (n : ℤ) (hfl : ⌊s⌋ = n) (h : s - n < 1 / 2) :
    rne s = n := by
  rw [rne, hfl, if_pos h]

/-- rne at an exact tie with even floor rounds to the floor. -/
theorem rne_of_half_even (s : ℚ) (n : ℤ) (hfl : ⌊s⌋ = n) (hhalf : s - n = 1 / 2)
    (heven : n % 2 = 0) : rne s = n := by
  rw [rne, hfl, hhalf, if_neg (by norm_num), if_neg (by norm_num), if_pos heven]

/-- Concrete tie-to-even rounding: 16777217 = 2^24 + 1 rounds to 2^24 at float
precision. -/
theorem rnd24_pow24succ : rnd 24 ((16777217 : ℕ) : ℚ) = 16777216 := by
  rw [rnd_eq_of 24 (e := 24) (by norm_num) (by norm_num) (by norm_num)]
  have h1 : ((16777217 : ℕ) : ℚ) * 2 ^ (((24 : ℕ) : ℤ) - 1 - 24) = 16777217 / 2 := by
    push_cast
    rw [zpow_neg, zpow_one]
    ring
  have h2 : rne ((16777217 : ℚ) / 2) = 8388608 := by
    refine rne_of_half_even _ _ ?_ (by norm_num) (by decide)
    rw [Int.floor_eq_iff]
    norm_num
  rw [h1, h2]
  push_cast
  norm_num

/-- The quotient 16777217 / 16777216 = 1 + 2^-24 is exactly representable in
double precision. -/
theorem rnd53_quotient : rnd 53 ((16777217 : ℚ) / 16777216) = 16777217 / 16777216 := by
  rw [rnd_eq_of 53 (e := 0) (by norm_num) (by norm_num) (by norm_num)]
  have h1 : (16777217 : ℚ) / 16777216 * 2 ^ (((53 : ℕ) : ℤ) - 1 - 0) =
      ((16777217 * 2 ^ 28 : ℤ) : ℚ) := by
    push_cast
    norm_num
  rw [h1, rne_intCast]
  push_cast
  rw [zpow_neg, show ((52 : ℤ)) = ((52 : ℕ) : ℤ) from by norm_num, zpow_natCast]
  norm_num

/-- C1 counterexample: with timescale = duration = 2^24 + 1 (both valid 32-bit
values) the true quotient D / T is exactly 1, which double precision represents
exactly, yet the program reports 1 + 2^-24: the timescale is narrowed to float
(losing its low-order bit), so the output deviates from D / T by far more than
double-precision accuracy. -/
theorem c1_counterexample :
    get_mp4_len (mkV0File 16777217 16777217) =
      .ok (.num ((16777217 : ℚ) / 16777216)) ∧
    rnd 53 ((16777217 : ℚ) / (16777217 : ℚ)) = 1 ∧
    ((16777217 : ℚ) / 16777216) ≠ 1 := by
  refine ⟨?_, ?_, by norm_num⟩
  · rw [get_v0 16777217 16777217 (by norm_num) (by norm_num)]
    rw [rnd_natCast 53 16777217 (by norm_num), rnd24_pow24succ]
    have hc : ((16777217 : ℕ) : ℚ) = (16777217 : ℚ) := by norm_num
    rw [hc, ddiv, if_neg (by norm_num), rnd53_quotient]
  · rw [div_self (by norm_num : (16777217 : ℚ) ≠ 0)]
    have h := rnd_natCast 53 1 (by norm_num)
    simpa using h

/-- C3 (code bug): a version-1 duration whose byte 4 has the top bit set is
decoded wrongly.  For the stored big-endian value 2^31 (bytes
00 00 00 00 80 00 00 00) the assembly of mp4len.c line 232 sign-extends
buf[4] << 24 through int arithmetic, yielding 2^64 - 2^31 instead of 2^31. -/
theorem c3_sign_extension_bug :
    u64FromBuf [0, 0, 0, 0, 128, 0, 0, 0] = 2 ^ 64 - 2 ^ 31 ∧
    be64_spec [0, 0, 0, 0, 128, 0, 0, 0] = 2 ^ 31 ∧
    u64FromBuf [0, 0, 0, 0, 128, 0, 0, 0] ≠ be64_spec [0, 0, 0, 0, 128, 0, 0, 0] :=
  ⟨by decide, by decide, by decide⟩

/-- C5 (code bug): on an otherwise well-formed version-0 file whose timescale
is zero, the program divides by zero in floating point, prints the resulting
infinity, and exits 0 - there is no guard, no error message, and no nonzero
exit code. -/
theorem c5_zero_timescale_not_guarded :
    mainFn (mkV0File 0 5000) = (0, some DVal.posInf) := by
  have hg : get_mp4_len (mkV0File 0 5000) =
      .ok (ddiv (rnd 53 ((5000 : ℕ) : ℚ)) (rnd 24 ((0 : ℕ) : ℚ))) :=
    get_v0 0 5000 (by norm_num) (by norm_num)
  have h1 : rnd 24 ((0 : ℕ) : ℚ) = 0 := by simp [rnd]
  have h2 : rnd 53 ((5000 : ℕ) : ℚ) = 5000 := by
    have h := rnd_natCast 53 5000 (by norm_num)
    simpa using h
  rw [h1, h2] at hg
  have hdv : ddiv (5000 : ℚ) 0 = DVal.posInf := by
    rw [ddiv, if_pos rfl, if_neg (by norm_num), if_pos (by norm_num)]
  rw [hdv] at hg
  rw [mainFn, if_neg (by rw [mkV0File_length]; norm_num [MIN_SIZE]),
    show has_mp4_magic (mkV0File 0 5000) = .ok true from by decide, hg]

/-- C6 (amended): even iterations read the partition block starting at
(xx / 2) * BLOCK_SIZE; odd iterations seek to fsize - (1 + (xx-1)/2) *
BLOCK_SIZE, i.e. blocks aligned to the end of the file, which coincides with
the partition block of index n_blocks - 1 - (xx-1)/2 exactly when BLOCK_SIZE
divides fsize. -/
theorem c6_seek_order (fsize xx : ℕ) (hx : xx < n_blocks fsize) :
    (xx % 2 = 0 → seekOffset fsize xx = ((xx / 2 : ℕ) : ℤ) * (BLOCK_SIZE : ℤ)) ∧
    (xx % 2 = 1 → seekOffset fsize xx =
      (fsize : ℤ) - ((1 + (xx - 1) / 2 : ℕ) : ℤ) * (BLOCK_SIZE : ℤ)) ∧
    (xx % 2 = 1 → (BLOCK_SIZE : ℕ) ∣ fsize → seekOffset fsize xx =
      ((n_blocks fsize - 1 - (xx - 1) / 2 : ℕ) : ℤ) * (BLOCK_SIZE : ℤ)) := by
  refine ⟨fun he => ?_, fun ho => ?_, fun ho hdvd => ?_⟩
  · rw [seekOffset, if_neg (by omega)]
  · rw [seekOffset, if_pos ho]
    simp only [BLOCK_SIZE] at *
    omega
  · rw [seekOffset, if_pos ho]
    have hmod : fsize % BLOCK_SIZE = 0 := Nat.mod_eq_zero_of_dvd hdvd
    simp only [n_blocks, hmod, gt_iff_lt, lt_irrefl, if_false, add_zero] at *
    simp only [BLOCK_SIZE] at *
    omega

/-- C6 counterexample: for a file of 16385 bytes (two blocks), odd iteration 1
seeks to absolute offset 1, not to the start of partition block
n_blocks - 1 - 0 = 1 at offset 16384 as the claim asserts. -/
theorem c6_counterexample :
    seekOffset 16385 1 = 1 ∧
    ((n_blocks 16385 - 1 - (1 - 1) / 2 : ℕ) : ℤ) * (BLOCK_SIZE : ℤ) = 16384 ∧
    (1 : ℤ) ≠ 16384 :=
  ⟨by decide, by decide, by decide⟩

/-- C6 witness: the amended odd-iteration formula at fsize 32768, iteration 1. -/
theorem c6_seek_order_witness :
    seekOffset 32768 1 = (32768 : ℤ) - ((1 + (1 - 1) / 2 : ℕ) : ℤ) * (BLOCK_SIZE : ℤ) :=
  (c6_seek_order 32768 1 (by decide)).2.1 (by decide)

/-- C7: after the version byte the decoder skips 11 bytes when version = 0 and
19 when version = 1, reading a 4- or 8-byte duration respectively; every
version value other than 1 (EOF and 2..255 included) takes the version-0
widths. -/
theorem c7_version_skip (v : ℤ) :
    skipLen 0 = 11 ∧ skipLen 1 = 19 ∧
      (v ≠ 1 → skipLen v = 11 ∧ durWidth v = 4) := by
  refine ⟨by decide, by decide, fun hv => ⟨?_, ?_⟩⟩ <;> simp [skipLen, durWidth, hv]

/-- C7 witness: an out-of-range version value takes the version-0 widths. -/
theorem c7_version_skip_witness : skipLen 7 = 11 ∧ durWidth 7 = 4 :=
  (c7_version_skip 7).2.2 (by decide)

/-- C8: any file shorter than 51 bytes makes main exit with code 3 and print
nothing to standard output, whatever the content; the signature check, the
scan and the decode are not reached. -/
theorem c8_small_file (file : List ℕ) (h : file.length < 51) :
    mainFn file = (3, none) := by
  rw [mainFn, if_pos (by simpa [MIN_SIZE] using h)]

/-- C8 witness: a 50-byte file of arbitrary content exits 3. -/
theorem c8_small_file_witness :
    (List.replicate 50 7).length < 51 ∧ mainFn (List.replicate 50 7) = (3, none) :=
  ⟨by simp, c8_small_file _ (by simp)⟩

/-- C10: for a file of at least 51 bytes the 8-byte read at offset 4 always
succeeds, so has_mp4_magic never takes its fatal-error exits and returns a
boolean verdict to its caller. -/
theorem c10_sniffer_total (file : List ℕ) (h : 51 ≤ file.length) :
    ∃ b : Bool, has_mp4_magic file = .ok b := by
  have hlen : ¬(((file.drop 4).take 8).length ≠ 8) := by
    simp only [List.length_take, List.length_drop, ne_eq]
    omega
  refine ⟨if magic_ull ((file.drop 4).take 8) = 0x6D6F736970797466 ∨
            magic_ull ((file.drop 4).take 8) = 0x3234706D70797466 then true else false, ?_⟩
  simp only [has_mp4_magic, if_neg hlen]

/-- C10 witness: a 51-byte zero file gets a boolean verdict. -/
theorem c10_sniffer_total_witness :
    ∃ b : Bool, has_mp4_magic (List.replicate 51 0) = .ok b :=
  c10_sniffer_total _ (by simp)

/-- A list of length 8 is an eight-element literal. -/
theorem list_len8 {α : Type} {l : List α} (h : l.length = 8) :
    ∃ c0 c1 c2 c3 c4 c5 c6 c7, l = [c0, c1, c2, c3, c4, c5, c6, c7] := by
  obtain ⟨c0, l, rfl⟩ := List.exists_of_length_succ l h
  have h1 : l.length = 7 := by simpa using h
  obtain ⟨c1, l, rfl⟩ := List.exists_of_length_succ l h1
  have h2 : l.length = 6 := by simpa using h1
  obtain ⟨c2, l, rfl⟩ := List.exists_of_length_succ l h2
  have h3 : l.length = 5 := by simpa using h2
  obtain ⟨c3, l, rfl⟩ := List.exists_of_length_succ l h3
  have h4 : l.length = 4 := by simpa using h3
  obtain ⟨c4, l, rfl⟩ := List.exists_of_length_succ l h4
  have h5 : l.length = 3 := by simpa using h4
  obtain ⟨c5, l, rfl⟩ := List.exists_of_length_succ l h5
  have h6 : l.length = 2 := by simpa using h5
  obtain ⟨c6, l, rfl⟩ := List.exists_of_length_succ l h6
  have h7 : l.length = 1 := by simpa using h6
  obtain ⟨c7, l, rfl⟩ := List.exists_of_length_succ l h7
  have h8 : l.length = 0 := by simpa using h7
  obtain rfl := List.length_eq_zero.mp h8
  exact ⟨c0, c1, c2, c3, c4, c5, c6, c7, rfl⟩

/-- The little-endian reinterpretation of eight bytes equals the ISO-BMFF
constant exactly when the bytes are the signature "ftypisom". -/
theorem magic_ull_iso {c0 c1 c2 c3 c4 c5 c6 c7 : ℕ}
    (h0 : c0 < 256) (h1 : c1 < 256) (h2 : c2 < 256) (h3 : c3 < 256)
    (h4 : c4 < 256) (h5 : c5 < 256) (h6 : c6 < 256) (_h7 : c7 < 256) :
    magic_ull [c0, c1, c2, c3, c4, c5, c6, c7] = 0x6D6F736970797466 ↔
      [c0, c1, c2, c3, c4, c5, c6, c7] = isoSig := by
  simp only [magic_ull, isoSig, List.cons.injEq, and_true]
  omega

/-- The little-endian reinterpretation of eight bytes equals the QuickTime
constant exactly when the bytes are the signature "ftypmp42". -/
theorem magic_ull_mp42 {c0 c1 c2 c3 c4 c5 c6 c7 : ℕ}
    (h0 : c0 < 256) (h1 : c1 < 256) (h2 : c2 < 256) (h3 : c3 < 256)
    (h4 : c4 < 256) (h5 : c5 < 256) (h6 : c6 < 256) (_h7 : c7 < 256) :
    magic_ull [c0, c1, c2, c3, c4, c5, c6, c7] = 0x3234706D70797466 ↔
      [c0, c1, c2, c3, c4, c5, c6, c7] = mp42Sig := by
  simp only [magic_ull, mp42Sig, List.cons.injEq, and_true]
  omega

/-- C4: for a byte-valued file long enough to hold the signature region,
has_mp4_magic answers 1 exactly when bytes 4-11 are "ftypisom" or "ftypmp42"
in file order, and 0 for every other content of those bytes. -/
theorem c4_sniffer_iff (file : List ℕ) (hwf : ∀ b ∈ file, b < 256)
    (hlen : 12 ≤ file.length) :
    (has_mp4_magic file = .ok true ↔
      ((file.drop 4).take 8 = isoSig ∨ (file.drop 4).take 8 = mp42Sig)) ∧
    (has_mp4_magic file = .ok false ↔
      ¬((file.drop 4).take 8 = isoSig ∨ (file.drop 4).take 8 = mp42Sig)) := by
  have hlen8 : ((file.drop 4).take 8).length = 8 := by
    simp only [List.length_take, List.length_drop]
    omega
  have hb : ∀ b ∈ (file.drop 4).take 8, b < 256 := fun b hbm =>
    hwf b (List.drop_subset 4 file (List.take_subset 8 _ hbm))
  obtain ⟨c0, c1, c2, c3, c4, c5, c6, c7, hl⟩ := list_len8 hlen8
  have hP : (magic_ull ((file.drop 4).take 8) = 0x6D6F736970797466 ∨
      magic_ull ((file.drop 4).take 8) = 0x3234706D70797466) ↔
      ((file.drop 4).take 8 = isoSig ∨ (file.drop 4).take 8 = mp42Sig) := by
    rw [hl] at hb ⊢
    exact or_congr
      (magic_ull_iso (hb c0 (by simp)) (hb c1 (by simp)) (hb c2 (by simp))
        (hb c3 (by simp)) (hb c4 (by simp)) (hb c5 (by simp)) (hb c6 (by simp))
        (hb c7 (by simp)))
      (magic_ull_mp42 (hb c0 (by simp)) (hb c1 (by simp)) (hb c2 (by simp))
        (hb c3 (by simp)) (hb c4 (by simp)) (hb c5 (by simp)) (hb c6 (by simp))
        (hb c7 (by simp)))
  have hne : ¬(((file.drop 4).take 8).length ≠ 8) := by omega
  simp only [has_mp4_magic, if_neg hne]
  by_cases hp : (magic_ull ((file.drop 4).take 8) = 0x6D6F736970797466 ∨
      magic_ull ((file.drop 4).take 8) = 0x3234706D70797466)
  · simp only [if_pos hp]
    constructor
    · simpa using hP.mp hp
    · have := hP.mp hp
      simp [this]
  · have hq : ¬((file.drop 4).take 8 = isoSig ∨ (file.drop 4).take 8 = mp42Sig) :=
      fun hq => hp (hP.mpr hq)
    simp only [if_neg hp]
    refine ⟨⟨fun hco => by simp at hco, fun hco => absurd hco hq⟩, ?_⟩
    simp [hq]

/-- C4 witness: the synthetic file carries the ISO signature. -/
theorem c4_sniffer_iff_witness :
    (has_mp4_magic (mkV0File 1 1) = .ok true ↔
      (((mkV0File 1 1).drop 4).take 8 = isoSig ∨
        ((mkV0File 1 1).drop 4).take 8 = mp42Sig)) ∧
    (has_mp4_magic (mkV0File 1 1) = .ok false ↔
      ¬(((mkV0File 1 1).drop 4).take 8 = isoSig ∨
        ((mkV0File 1 1).drop 4).take 8 = mp42Sig)) :=
  c4_sniffer_iff _ (by decide) (by decide)

/-- The covering block count is tight: fsize fits in n_blocks blocks and
exceeds n_blocks - 1 of them. -/
theorem n_blocks_bounds (fsize : ℕ) (h : 1 ≤ fsize) :
    fsize ≤ n_blocks fsize * BLOCK_SIZE ∧ (n_blocks fsize - 1) * BLOCK_SIZE < fsize := by
  rw [n_blocks]
  by_cases hmod : fsize % BLOCK_SIZE > 0 <;> simp only [hmod, if_true, if_false] <;>
    simp only [BLOCK_SIZE] at * <;> omega

/-- Even iterations start reading at front-aligned partition blocks. -/
theorem seekOffset_even_toNat (fsize i : ℕ) :
    (seekOffset fsize (2 * i)).toNat = i * BLOCK_SIZE := by
  rw [seekOffset, if_neg (by omega), show 2 * i / 2 = i from by omega,
    ← Nat.cast_mul, Int.toNat_ofNat]

/-- Odd iterations start reading at end-aligned positions. -/
theorem seekOffset_odd_toNat (fsize m : ℕ) (h1 : 1 ≤ m) (hm : m * BLOCK_SIZE ≤ fsize)
    (h2 : m ≤ n_blocks fsize - 1) :
    (seekOffset fsize (2 * m - 1)).toNat = fsize - m * BLOCK_SIZE := by
  rw [seekOffset, if_pos (by omega), show (2 * m - 1 - 1) / 2 = m - 1 from by omega]
  have he : (((n_blocks fsize - 1 - (m - 1) : ℕ) : ℤ) - (n_blocks fsize : ℤ)) *
      (BLOCK_SIZE : ℤ) + (fsize : ℤ) = ((fsize - m * BLOCK_SIZE : ℕ) : ℤ) := by
    simp only [BLOCK_SIZE] at *
    omega
  rw [he, Int.toNat_ofNat]

/-- C9: for every file of at least MIN_SIZE bytes, the byte ranges read by the
n_blocks loop iterations (front blocks start-aligned, back blocks end-aligned,
each read capped at the remaining length) jointly cover every byte offset of
the file. -/
theorem c9_block_coverage (fsize k : ℕ) (hf : 51 ≤ fsize) (hk : k < fsize) :
    ∃ xx, xx < n_blocks fsize ∧
      (seekOffset fsize xx).toNat ≤ k ∧
      k < (seekOffset fsize xx).toNat +
        min BLOCK_SIZE (fsize - (seekOffset fsize xx).toNat) := by
  have hnb := n_blocks_bounds fsize (by omega)
  by_cases hcase : 2 * (k / BLOCK_SIZE) < n_blocks fsize
  · refine ⟨2 * (k / BLOCK_SIZE), hcase, ?_, ?_⟩ <;>
      rw [seekOffset_even_toNat] <;> simp only [BLOCK_SIZE] at * <;> omega
  · have hx : 2 * ((fsize - k - 1) / BLOCK_SIZE + 1) - 1 < n_blocks fsize := by
      simp only [BLOCK_SIZE] at *
      omega
    have hmB : ((fsize - k - 1) / BLOCK_SIZE + 1) * BLOCK_SIZE ≤ fsize := by
      simp only [BLOCK_SIZE] at *
      omega
    have hm2 : (fsize - k - 1) / BLOCK_SIZE + 1 ≤ n_blocks fsize - 1 := by
      simp only [BLOCK_SIZE] at *
      omega
    have hso := seekOffset_odd_toNat fsize ((fsize - k - 1) / BLOCK_SIZE + 1)
      (Nat.le_add_left 1 _) hmB hm2
    refine ⟨2 * ((fsize - k - 1) / BLOCK_SIZE + 1) - 1, hx, ?_, ?_⟩ <;>
      rw [hso] <;> simp only [BLOCK_SIZE] at * <;> omega

/-- C9 witness: offset 0 of a 51-byte file is covered. -/
theorem c9_block_coverage_witness :
    ∃ xx, xx < n_blocks 51 ∧
      (seekOffset 51 xx).toNat ≤ 0 ∧
      0 < (seekOffset 51 xx).toNat +
        min BLOCK_SIZE (51 - (seekOffset 51 xx).toNat) :=
  c9_block_coverage 51 0 (by norm_num) (by norm_num)

/-- Peeling one matched byte off the remaining header suffix. -/
theorem hdr_drop_cons (cm : ℕ) (h : cm ≤ 3) :
    hdrList.drop cm = hdrByte cm :: hdrList.drop (cm + 1) := by
  interval_cases cm <;> rfl

/-- Soundness of the in-block scan when it reports a match: the cursor is
within one byte and the buffer length of the scan start, and either the four
bytes before the cursor lie inside the buffer and spell the tag, or the match
consumed exactly the remaining header suffix continuing an initial streak. -/
theorem scanBuf_some {l : List ℕ} {cm pos c r : ℕ} (hcm : cm ≤ 3)
    (h : scanBuf l cm pos = (some c, r)) :
    pos + 1 ≤ c ∧ c ≤ pos + l.length ∧
      ((4 ≤ c - pos ∧ (l.drop (c - pos - 4)).take 4 = hdrList) ∨
        (c - pos = 4 - cm ∧ l.take (4 - cm) = hdrList.drop cm)) := by
  induction l generalizing cm pos with
  | nil => simp [scanBuf] at h
  | cons b rest ih =>
    rw [scanBuf] at h
    by_cases hb : b = hdrByte cm
    · rw [if_pos hb] at h
      by_cases h3 : cm = 3
      · rw [if_pos h3] at h
        simp only [Prod.mk.injEq, Option.some.injEq] at h
        obtain ⟨hc, -⟩ := h
        subst hc h3
        refine ⟨le_refl _, by simp, Or.inr ⟨by omega, ?_⟩⟩
        subst hb
        rfl
      · rw [if_neg h3] at h
        obtain ⟨h1, h2, h4⟩ := ih (by omega) h
        refine ⟨by omega, by simp only [List.length_cons]; omega, ?_⟩
        rcases h4 with ⟨hge, hsl⟩ | ⟨hcp, htk⟩
        · left
          refine ⟨by omega, ?_⟩
          rw [show c - pos - 4 = (c - (pos + 1) - 4) + 1 from by omega,
            List.drop_succ_cons]
          exact hsl
        · right
          refine ⟨by omega, ?_⟩
          rw [show 4 - cm = (4 - (cm + 1)) + 1 from by omega, List.take_succ_cons,
            htk, hb, ← hdr_drop_cons cm hcm]
    · rw [if_neg hb] at h
      obtain ⟨h1, h2, h4⟩ := ih (by omega) h
      refine ⟨by omega, by simp only [List.length_cons]; omega, Or.inl ?_⟩
      rcases h4 with ⟨hge, hsl⟩ | ⟨hcp, htk⟩
      · refine ⟨by omega, ?_⟩
        rw [show c - pos - 4 = (c - (pos + 1) - 4) + 1 from by omega,
          List.drop_succ_cons]
        exact hsl
      · refine ⟨by omega, ?_⟩
        rw [show c - pos - 4 = 0 + 1 from by omega, List.drop_succ_cons,
          List.drop_zero]
        simpa using htk

/-- Behavior of the in-block scan when it reports no match: the final streak is
at most 3, is bounded by the initial streak plus the buffer length, and the
bytes it stands for are determined: the trailing streak bytes of the buffer
spell a header prefix, or (when the streak never broke) the whole buffer
continues the initial streak. -/
theorem scanBuf_none {l : List ℕ} {cm pos cmf : ℕ} (hcm : cm ≤ 3)
    (h : scanBuf l cm pos = (none, cmf)) :
    cmf ≤ 3 ∧ cmf ≤ cm + l.length ∧
      (cmf ≤ l.length → l.drop (l.length - cmf) = hdrList.take cmf) ∧
      (l.length < cmf → l = (hdrList.drop cm).take l.length ∧ cmf = cm + l.length) := by
  induction l generalizing cm pos with
  | nil =>
    rw [scanBuf] at h
    simp only [Prod.mk.injEq] at h
    obtain ⟨-, hcmf⟩ := h
    subst hcmf
    exact ⟨hcm, by simp, fun hle => by
        have h0 : cm = 0 := by simpa using hle
        simp [h0], fun hlt => ⟨by simp, by simp⟩⟩
  | cons b rest ih =>
    rw [scanBuf] at h
    by_cases hb : b = hdrByte cm
    · rw [if_pos hb] at h
      by_cases h3 : cm = 3
      · rw [if_pos h3] at h
        simp at h
      · rw [if_neg h3] at h
        obtain ⟨ih1, ih2, ih3, ih4⟩ := ih (by omega) h
        refine ⟨ih1, by simp only [List.length_cons]; omega, fun hle => ?_, fun hlt => ?_⟩
        · by_cases hsub : cmf ≤ rest.length
          · rw [show (b :: rest).length - cmf = (rest.length - cmf) + 1 from by
                simp only [List.length_cons]; omega, List.drop_succ_cons]
            exact ih3 hsub
          · obtain ⟨hrest, hcmf⟩ := ih4 (by omega)
            have h0 : cm = 0 := by simp only [List.length_cons] at hle; omega
            subst h0
            have hL : (b :: rest).length - cmf = 0 := by
              simp only [List.length_cons]; omega
            rw [hL, List.drop_zero]
            have hcmf1 : cmf = rest.length + 1 := by omega
            rw [hcmf1, show hdrList = hdrByte 0 :: hdrList.drop 1 from rfl,
              List.take_succ_cons, hb]
            exact congrArg _ (by simpa using hrest)
        · obtain ⟨hrest, hcmf⟩ := ih4 (by simp only [List.length_cons] at hlt; omega)
          constructor
          · rw [hdr_drop_cons cm hcm, List.length_cons, List.take_succ_cons, hb]
            exact congrArg _ hrest
          · simp only [List.length_cons]
            omega
    · rw [if_neg hb] at h
      obtain ⟨ih1, ih2, ih3, ih4⟩ := ih (by omega) h
      refine ⟨ih1, by simp only [List.length_cons]; omega, fun hle => ?_, fun hlt => ?_⟩
      · have hsub : cmf ≤ rest.length := by omega
        rw [show (b :: rest).length - cmf = (rest.length - cmf) + 1 from by
            simp only [List.length_cons]; omega, List.drop_succ_cons]
        exact ih3 hsub
      · exact absurd hlt (by simp only [List.length_cons]; omega)

/-- A completed streak terminates the continuation immediately. -/
theorem contMatch_done (file : List ℕ) (fuel q : ℕ) :
    contMatch file fuel 4 q = (4, q) := by
  cases fuel <;> simp [contMatch]

/-- Soundness of the block-boundary continuation: when it completes the match,
the bytes read from the starting position onward spell exactly the missing
header suffix, and the final position is just past the last of them and inside
the file. -/
theorem contMatch_sound {file : List ℕ} {fuel cm q c : ℕ} (hcm : cm ≤ 3)
    (hfuel : 4 - cm ≤ fuel) (h : contMatch file fuel cm q = (4, c)) :
    c = q + (4 - cm) ∧ c ≤ file.length ∧
      (file.drop q).take (4 - cm) = hdrList.drop cm := by
  induction fuel generalizing cm q with
  | zero => omega
  | succ fuel ih =>
    rw [contMatch, if_neg (by omega : ¬cm = 4)] at h
    by_cases hb : file.getD q 256 = hdrByte cm
    · rw [if_pos hb] at h
      have hq : q < file.length := by
        by_contra hq
        push_neg at hq
        rw [List.getD_eq_getElem?_getD, List.getElem?_eq_none hq] at hb
        interval_cases cm <;> simp [hdrByte] at hb
      have hbq : file[q] = hdrByte cm := by
        rw [List.getD_eq_getElem?_getD, List.getElem?_eq_getElem hq] at hb
        simpa using hb
      by_cases h3 : cm = 3
      · subst h3
        rw [contMatch_done] at h
        simp only [Prod.mk.injEq] at h
        obtain ⟨-, hc⟩ := h
        subst hc
        refine ⟨by omega, by omega, ?_⟩
        rw [List.drop_eq_getElem_cons hq, show 4 - 3 = 0 + 1 from rfl,
          List.take_succ_cons, List.take_zero, hbq]
        rfl
      · obtain ⟨ih1, ih2, ih3⟩ := ih (by omega) (by omega) h
        refine ⟨by omega, ih2, ?_⟩
        rw [List.drop_eq_getElem_cons hq, show 4 - cm = (4 - (cm + 1)) + 1 from by
            omega, List.take_succ_cons, ih3, hbq, ← hdr_drop_cons cm hcm]
    · rw [if_neg hb] at h
      simp at h

/-- A tag slice found inside a block buffer is a tag slice of the file. -/
theorem slice_of_buf {file buf : List ℕ} {start j : ℕ}
    (hbuf : buf = (file.drop start).take BLOCK_SIZE)
    (hj : j + 4 ≤ buf.length)
    (hsl : (buf.drop j).take 4 = hdrList) :
    (file.drop (start + j)).take 4 = hdrList := by
  subst hbuf
  rw [List.drop_take, List.drop_drop, List.take_take] at hsl
  have h4 : min 4 (BLOCK_SIZE - j) = 4 := by
    simp only [List.length_take, List.length_drop] at hj
    omega
  rwa [h4] at hsl

/-- The trailing streak bytes of a block buffer are trailing bytes of the
file at the corresponding offsets. -/
theorem pre_of_buf {file buf : List ℕ} {start cmf : ℕ}
    (hbuf : buf = (file.drop start).take BLOCK_SIZE)
    (hcmf : cmf ≤ buf.length)
    (hpre : buf.drop (buf.length - cmf) = hdrList.take cmf) :
    (file.drop (start + (buf.length - cmf))).take cmf = hdrList.take cmf := by
  subst hbuf
  have hbl : ((file.drop start).take BLOCK_SIZE).length ≤ BLOCK_SIZE := by
    simp only [List.length_take, List.length_drop]
    omega
  have hcg := congrArg (List.take cmf) hpre
  rw [List.drop_take, List.drop_drop, List.take_take, List.take_take, min_self] at hcg
  rwa [show min cmf (BLOCK_SIZE - (((file.drop start).take BLOCK_SIZE).length - cmf)) =
      cmf from by omega] at hcg

/-- Gluing a matched header prefix before position i + cmf with the matched
suffix after it yields the full tag at position i. -/
theorem match_glue {file : List ℕ} {i cmf : ℕ} (hcm : cmf ≤ 4)
    (h1 : (file.drop i).take cmf = hdrList.take cmf)
    (h2 : (file.drop (i + cmf)).take (4 - cmf) = hdrList.drop cmf) :
    (file.drop i).take 4 = hdrList := by
  rw [show (4 : ℕ) = cmf + (4 - cmf) from by omega, List.take_add, h1,
    List.drop_drop, h2, List.take_append_drop]

/-- Soundness of the block loop: whenever it reports a cursor, that cursor is
at least 4, at most the file length, and sits exactly one byte past an
occurrence of the tag. -/
theorem mthLoop_sound {file : List ℕ} {its : List ℕ} {c : ℕ}
    (h : mthLoop file its = some c) :
    4 ≤ c ∧ c ≤ file.length ∧ isMatchAt file (c - 4) := by
  induction its with
  | nil => simp [mthLoop] at h
  | cons xx rest ih =>
    simp only [mthLoop] at h
    set start := (seekOffset file.length xx).toNat with hstartdef
    set buf := (file.drop start).take BLOCK_SIZE with hbufdef
    have hlen_buf : buf.length = min BLOCK_SIZE (file.length - start) := by
      rw [hbufdef]
      simp [List.length_take, List.length_drop]
    rcases hscan : scanBuf buf 0 start with ⟨o, cmf⟩
    rw [hscan] at h
    cases o with
    | some c0 =>
      simp only [Option.some.injEq] at h
      subst h
      obtain ⟨h1, h2, h4⟩ := scanBuf_some (by omega) hscan
      rcases h4 with ⟨hge, hsl⟩ | ⟨hcp, htk⟩
      · refine ⟨by omega, by omega, ?_⟩
        have hj : (c0 - start - 4) + 4 ≤ buf.length := by omega
        have hfs := slice_of_buf hbufdef hj hsl
        rw [show start + (c0 - start - 4) = c0 - 4 from by omega] at hfs
        exact hfs
      · simp only [Nat.sub_zero, List.drop_zero] at hcp htk
        refine ⟨by omega, by omega, ?_⟩
        rw [hbufdef, List.take_take] at htk
        rw [show min 4 BLOCK_SIZE = 4 from by decide] at htk
        show (file.drop (c0 - 4)).take 4 = hdrList
        rw [show c0 - 4 = start from by omega]
        exact htk
    | none =>
      by_cases hcmf0 : 0 < cmf
      · rw [if_pos hcmf0] at h
        by_cases h4 : (contMatch file 4 cmf (start + buf.length)).1 = 4
        · rw [if_pos h4] at h
          simp only [Option.some.injEq] at h
          rcases hcont : contMatch file 4 cmf (start + buf.length) with ⟨cm2, q⟩
          rw [hcont] at h h4
          simp only at h h4
          subst h4
          obtain ⟨hc3, hclb, hple, -⟩ := scanBuf_none (by omega) hscan
          have hcb : cmf ≤ buf.length := by omega
          have hpre := pre_of_buf hbufdef hcb (hple hcb)
          obtain ⟨hq1, hq2, hq3⟩ := contMatch_sound (by omega) (by omega) hcont
          subst h
          refine ⟨by omega, hq2, ?_⟩
          show (file.drop (q - 4)).take 4 = hdrList
          have hi : q - 4 = start + (buf.length - cmf) := by omega
          rw [hi]
          refine match_glue (by omega) hpre ?_
          rw [show start + (buf.length - cmf) + cmf = start + buf.length from by omega]
          exact hq3
        · rw [if_neg h4] at h
          exact ih h
      · rw [if_neg hcmf0] at h
        exact ih h

/-- C2 (amended): whenever move_to_header reports success, the cursor sits
exactly one byte past an occurrence of the tag "mvhd" (so success implies the
pattern is present), and when the pattern is absent from the file the locator
reports not-found.  Presence of the pattern does not guarantee success: the
scanner resets its streak without re-examining the mismatching byte, so an
occurrence immediately preceded by a live partial match (such as an extra m in
"mmvhd") is missed. -/
theorem c2_locator_sound (file : List ℕ) :
    (∀ c, move_to_header file = some c →
      4 ≤ c ∧ c ≤ file.length ∧ isMatchAt file (c - 4)) ∧
    ((∀ i, ¬isMatchAt file i) → move_to_header file = none) := by
  constructor
  · intro c hc
    exact mthLoop_sound hc
  · intro habs
    rcases hmv : move_to_header file with - | c
    · rfl
    · exact absurd (mthLoop_sound hmv).2.2 (habs _)

/-- C2 witness: on the synthetic file the locator reports cursor 44, one byte
past the tag occurrence at offset 40. -/
theorem c2_locator_sound_witness :
    4 ≤ 44 ∧ 44 ≤ (mkV0File 1000 5000).length ∧
      isMatchAt (mkV0File 1000 5000) (44 - 4) :=
  (c2_locator_sound (mkV0File 1000 5000)).1 44 (by decide)

/-- C2 counterexample: badFile contains the pattern "mvhd" at offset 1, yet
move_to_header reports not-found ("mmvhd": the first m starts a streak, the
second m mismatches hdr[1] and resets the streak without being re-examined as
a fresh start, so the occurrence is skipped). -/
theorem c2_counterexample :
    isMatchAt badFile 1 ∧ move_to_header badFile = none :=
  ⟨by decide, by decide⟩
